import Mathlib

/-!
# mruby-ping: the ICMP prober of `src/icmp.c`

A shallow embedding of `in_cksum`, `fill_timeout` and `ping_send_pings`.

* Memory is a list of bytes; a `uint16_t` access goes through `load16` / `store16`, which
  depend on the byte order of the host.
* `struct ip` and `struct icmp` come from the system headers `<netinet/ip.h>` and
  `<netinet/ip_icmp.h>`: 20 and 28 bytes, `ip_hl` the low nibble of the first byte,
  `icmp_type` at offset 0, `icmp_code` at 1, `icmp_cksum` at 2, `icmp_id` at 4 and
  `icmp_seq` at 6.
* The mruby values the function touches (the result hash, its arrays, `nil`, fixnums) are
  modelled by association lists and lists of optional integers.
* The operating system is an input: whether each `sendto` succeeds, and what each `select`
  and the `recvfrom` calls after it deliver.
* `mrb_int` is `int32_t` or `int64_t`, `int` has 32 bits; an assignment to either keeps the low
  bits of the value (two's complement), as `wrap_int` does.
-/

namespace MrubyPing

/-! ## Bytes and 16-bit accesses -/

/-- One byte of memory. -/
abbrev Byte := Fin 256

/-- Byte order of the host. -/
inductive Endian where
  | little
  | big
  deriving DecidableEq, Repr

/-- Value of the `uint16_t` whose two bytes in memory are `b0` (lower address) and `b1`. -/
def load16 : Endian → Byte → Byte → Nat
  | .little, b0, b1 => b0.val + 256 * b1.val
  | .big, b0, b1 => 256 * b0.val + b1.val

/-- The two bytes a `uint16_t` store of `v` leaves in memory (`v` is taken modulo `2^16`). -/
def store16 : Endian → Nat → List Byte
  | .little, v => [Fin.ofNat (v % 256), Fin.ofNat (v / 256 % 256)]
  | .big, v => [Fin.ofNat (v / 256 % 256), Fin.ofNat (v % 256)]

/-- Exchange the two bytes of a 16-bit value. -/
def bswap16 (v : Nat) : Nat := (v % 256) * 256 + v / 256 % 256

/-- Function `htons`: argument converted to `uint16_t`, bytes exchanged on a little-endian host. -/
def htons : Endian → Nat → Nat
  | .little, v => bswap16 (v % 65536)
  | .big, v => v % 65536

/-- Function `ntohs`: the same conversion as `htons`. -/
def ntohs (e : Endian) (v : Nat) : Nat := htons e v

/-! ## `in_cksum` -/

/-- Largest value of the C type `int`. -/
def INT_MAX : Nat := 2147483647

/-- The `while (nleft > 1)` loop of `in_cksum`: the list is the memory from `w` on, its length
is `nleft`; returns the sum and the memory left at `w` when the loop stops. -/
def in_cksum_loop (e : Endian) : List Byte → Nat → Nat × List Byte
  | b0 :: b1 :: rest, sum => in_cksum_loop e rest (sum + load16 e b0 b1)
  | w, sum => (sum, w)

/-- The value of `sum` in `in_cksum` before the two fold steps: the loop, then the odd byte
copied into the first byte of the zeroed `answer`. -/
def in_cksum_sum (e : Endian) (addr : List Byte) : Nat :=
  match in_cksum_loop e addr 0 with
  | (sum, [b]) => sum + load16 e b 0
  | (sum, _) => sum

/-- The two fold steps `sum = (sum >> 16) + (sum & 0xFFFF); sum += (sum >> 16);`. -/
def in_cksum_fold (sum : Nat) : Nat :=
  let sum := (sum >>> 16) + (sum &&& 0xFFFF)
  sum + (sum >>> 16)

/-- The conversion `answer = ~sum` to `uint16_t`: the low 16 bits, complemented. -/
def not16 (sum : Nat) : Nat := 0xFFFF - sum % 0x10000

/-- The function `in_cksum(addr, len)` on a buffer `addr` of `len = addr.length` bytes. -/
def in_cksum (e : Endian) (addr : List Byte) : Nat :=
  not16 (in_cksum_fold (in_cksum_sum e addr))

/-! ## RFC 1071, following the words of the specification -/

/-- The buffer as 16-bit words in network byte order; an odd final byte is the high byte of
a zero-padded word. -/
def rfc1071_words : List Byte → List Nat
  | b0 :: b1 :: rest => (256 * b0.val + b1.val) :: rfc1071_words rest
  | [b0] => [256 * b0.val]
  | [] => []

/-- End-around carry: any carry out of bit 16 is folded back into the low 16 bits, repeated
until no carry remains. -/
def rfc1071_fold (s : Nat) : Nat :=
  if h : s < 65536 then s else rfc1071_fold (s / 65536 + s % 65536)
termination_by s
decreasing_by omega

/-- The RFC 1071 Internet checksum: one's complement of the end-around-carry sum. -/
def rfc1071 (b : List Byte) : Nat := 0xFFFF - rfc1071_fold (rfc1071_words b).sum

/-! ## Constants of the system headers -/

/-- The size of `struct ip`. -/
def sizeof_ip : Nat := 20

/-- The size of `struct icmp`. -/
def sizeof_icmp : Nat := 28

/-- ICMP type of an echo request. -/
def ICMP_ECHO : Nat := 8

/-- ICMP type of an echo reply. -/
def ICMP_ECHOREPLY : Nat := 0

/-! ## Memory accesses -/

/-- What can stop `ping_send_pings` other than its `return`. The first three are the mruby
exceptions the function raises; the last two are accesses the C code performs without a
check and whose behaviour is undefined. -/
inductive Fault where
  /-- The `E_TYPE_ERROR` raised by `mrb_raisef` when the timeout is not positive -/
  | typeError
  /-- The `E_RUNTIME_ERROR` raised by `mrb_raisef` when `sendto` fails -/
  | sendFailed
  /-- The `E_RUNTIME_ERROR` raised by `mrb_raise` when `recvfrom` fails for good -/
  | recvFailed
  /-- a read through `pkt` outside the array `packet` -/
  | outOfBounds
  /-- A call of `mrb_ary_set` on the `nil` that `mrb_hash_get` returns for an absent key -/
  | notAnArray
  deriving DecidableEq, Repr

deriving instance DecidableEq for Except

/-- Read of a `uint8_t` at offset `off` of the buffer `m`. -/
def readU8 (m : List Byte) (off : Nat) : Except Fault Nat :=
  match m[off]? with
  | some b => .ok b.val
  | none => .error .outOfBounds

/-- Read of a `uint16_t` at offset `off` of the buffer `m`. -/
def readU16 (e : Endian) (m : List Byte) (off : Nat) : Except Fault Nat :=
  match m[off]?, m[off + 1]? with
  | some b0, some b1 => .ok (load16 e b0 b1)
  | _, _ => .error .outOfBounds

/-- Store of a `uint8_t` at offset `off`. -/
def writeU8 (m : List Byte) (off : Nat) (v : Nat) : List Byte :=
  m.set off (Fin.ofNat (v % 256))

/-- Store of a `uint16_t` at offset `off`. -/
def writeU16 (e : Endian) (m : List Byte) (off : Nat) (v : Nat) : List Byte :=
  match store16 e v with
  | [b0, b1] => (m.set off b0).set (off + 1) b1
  | _ => m

/-! ## Building the echo request (lines 178-187) -/

/-- The writes `icmp.icmp_type = ICMP_ECHO; icmp.icmp_code = 0; icmp.icmp_id = 0xFFFF;` on the
memory of the local `struct icmp`. -/
def icmp_set_header (e : Endian) (icmp : List Byte) : List Byte :=
  let icmp := writeU8 icmp 0 ICMP_ECHO
  let icmp := writeU8 icmp 1 0
  writeU16 e icmp 4 0xFFFF

/-- The writes `icmp.icmp_seq = htons(j); icmp.icmp_cksum = 0;
icmp.icmp_cksum = in_cksum((uint16_t *)&icmp, sizeof(icmp));`. -/
def icmp_set_seq (e : Endian) (icmp : List Byte) (j : Nat) : List Byte :=
  let icmp := writeU16 e icmp 6 (htons e j)
  let icmp := writeU16 e icmp 2 0
  writeU16 e icmp 2 (in_cksum e icmp)

/-- The echo request sent for sequence index `j`, from the initial contents `icmp` of the
local `struct icmp`. -/
def echo_request (e : Endian) (icmp : List Byte) (j : Nat) : List Byte :=
  icmp_set_seq e (icmp_set_header e icmp) j

/-! ## mruby values -/

/-- An IPv4 address (`in_addr_t`). The keys of the result hash are the strings `inet_ntoa`
makes of addresses, one string per address. -/
abbrev Addr := Nat

/-- An mruby array of latencies: `none` is `nil`, `some n` the fixnum `n`. -/
abbrev RArray := List (Option Int)

/-- The result hash, in insertion order. -/
abbrev RHash := List (Addr × RArray)

/-- The mruby function `mrb_ary_set(mrb, ary, n, val)` for `n ≥ 0`: an index at or past the
length grows the array, filling the gap with `nil`. -/
def mrb_ary_set (ary : RArray) (n : Nat) (val : Option Int) : RArray :=
  if ary.length ≤ n then ary ++ List.replicate (n - ary.length) none ++ [val]
  else ary.set n val

/-- The mruby function `mrb_hash_get`: `none` is the `nil` returned for an absent key. -/
def mrb_hash_get : RHash → Addr → Option RArray
  | [], _ => none
  | (k, v) :: h, key => if k = key then some v else mrb_hash_get h key

/-- The mruby function `mrb_hash_set`: replaces the value of a present key. -/
def mrb_hash_set : RHash → Addr → RArray → RHash
  | [], key, val => [(key, val)]
  | (k, v) :: h, key, val =>
    if k = key then (k, val) :: h else (k, v) :: mrb_hash_set h key val

/-! ## Time -/

/-- A `struct timeval`. -/
structure Timeval where
  tv_sec : Int
  tv_usec : Int
  deriving DecidableEq, Repr

/-- The loop of `fill_timeout`: at most `fuel` iterations. -/
def fill_timeout_loop : Nat → Nat → Int → Int × Nat
  | 0, duration, tv_sec => (tv_sec, duration)
  | fuel + 1, duration, tv_sec =>
    if duration ≥ 1000000 then fill_timeout_loop fuel (duration - 1000000) (tv_sec + 1)
    else (tv_sec, duration)

/-- The function `fill_timeout(&tv, duration)`; the loop runs fewer than `duration + 1`
times. -/
def fill_timeout (duration : Nat) : Timeval :=
  match fill_timeout_loop duration duration 0 with
  | (tv_sec, rest) => { tv_sec := tv_sec, tv_usec := rest }

/-- Conversion of a signed value to `uint64_t`. -/
def toUInt64 (x : Int) : Nat := (x % 18446744073709551616).toNat

/-- The value a signed integer type of `bits` bits holds after it is assigned `x`: the low
`bits` bits of `x` in two's complement. -/
def wrap_int (bits : Nat) (x : Int) : Int :=
  (x + ((2 ^ (bits - 1) : Nat) : Int)) % ((2 ^ bits : Nat) : Int) - ((2 ^ (bits - 1) : Nat) : Int)

/-- Width of the C type `int`. -/
def int_bits : Nat := 32

/-- The mruby integer type `mrb_int`: `int32_t`, or `int64_t` when mruby is built with
`MRB_INT64`. -/
inductive MrbInt where
  | int32
  | int64
  deriving DecidableEq, Repr

/-- Number of bits of `mrb_int`. -/
def MrbInt.bits : MrbInt → Nat
  | .int32 => 32
  | .int64 => 64

/-- Largest value of `mrb_int`. -/
def MRB_INT_MAX (m : MrbInt) : Int := ((2 ^ (m.bits - 1) : Nat) : Int) - 1

/-- The function `mrb_fixnum_value`: its argument converted to `mrb_int`. -/
def mrb_fixnum_value (m : MrbInt) (x : Int) : Int := wrap_int m.bits x

/-- The expression whose value is stored for a reply, computed in `long`:
`(received_at.tv_sec - sent_at.tv_sec) * 1000000 + (received_at.tv_usec - sent_at.tv_usec)`. -/
def latency (sent_at received_at : Timeval) : Int :=
  (received_at.tv_sec - sent_at.tv_sec) * 1000000 + (received_at.tv_usec - sent_at.tv_usec)

/-! ## The receive phase -/

/-- The ICMP fields the receive loop decodes from an accepted datagram. -/
structure Reply where
  seq : Nat
  id : Nat
  deriving DecidableEq, Repr

/-- Lines 238-247 on the `c` bytes `packet` that `recvfrom` wrote: the length check, the
header skip `packet + (iphdr->ip_hl << 2)`, the tests on `icmp_type` and `icmp_id`, and
`ntohs(pkt->icmp_seq)`. `none` when the datagram is ignored. -/
def parse_reply (e : Endian) (packet : List Byte) : Except Fault (Option Reply) :=
  if packet.length ≥ sizeof_ip + sizeof_icmp then do
    let b0 ← readU8 packet 0
    let pkt := (b0 % 16) <<< 2
    let icmp_type ← readU8 packet pkt
    if icmp_type = ICMP_ECHOREPLY then do
      let icmp_id ← readU16 e packet (pkt + 4)
      if icmp_id = 0xFFFF then do
        let icmp_seq ← readU16 e packet (pkt + 6)
        pure (some { seq := ntohs e icmp_seq, id := icmp_id })
      else pure none
    else pure none
  else pure none

/-- One datagram as `recvfrom` delivers it, with the time `gettimeofday(&received_at)` reads
when the datagram is handled. -/
structure Datagram where
  src : Addr
  data : List Byte
  received_at : Timeval
  deriving DecidableEq, Repr

/-- The size `sizeof(struct ip) + sizeof(struct icmp)` of the array `packet`, which is also
the length passed to `recvfrom`. -/
def packet_size : Nat := sizeof_ip + sizeof_icmp

/-- Lines 238-258 for one datagram: `recvfrom` writes at most `packet_size` bytes; an accepted
reply is stored with `mrb_ary_set` in the array `mrb_hash_get` finds for the sender. -/
def handle_datagram (e : Endian) (m : MrbInt) (sent_at : Timeval) (ret_value : RHash)
    (d : Datagram) : Except Fault RHash :=
  match parse_reply e (d.data.take packet_size) with
  | .error f => .error f
  | .ok none => .ok ret_value
  | .ok (some r) =>
    match mrb_hash_get ret_value d.src with
    | none => .error .notAnArray
    | some value =>
      .ok (mrb_hash_set ret_value d.src
        (mrb_ary_set value r.seq
          (some (mrb_fixnum_value m (latency sent_at d.received_at)))))

/-- The value of `errno` after the `recvfrom` that returns a negative count. -/
inductive RecvErrno where
  | eagain
  | eintr
  | other
  deriving DecidableEq, Repr

/-- The inner `while(1)` loop (lines 228-259): the datagrams `recvfrom` delivers, then the
call that fails. -/
def recv_drain (e : Endian) (m : MrbInt) (sent_at : Timeval) :
    RHash → List Datagram → RecvErrno → Except Fault RHash
  | _, [], .other => .error .recvFailed
  | ret_value, [], _ => .ok ret_value
  | ret_value, d :: ds, errno =>
    match handle_datagram e m sent_at ret_value d with
    | .error f => .error f
    | .ok ret_value => recv_drain e m sent_at ret_value ds errno

/-- What one `select` call and the reads after it deliver. -/
structure SelectResult where
  /-- return value of `select`: `-1`, `0` or `1` -/
  ret : Int
  /-- contents of `tv` when `select` returns -/
  tv : Timeval
  /-- datagrams read when `ret` is `1` -/
  datagrams : List Datagram
  /-- value of `errno` after the `recvfrom` that ends the reads -/
  errno : RecvErrno
  deriving DecidableEq, Repr

/-- How a run of `ping_send_pings` ends. -/
inductive Outcome where
  /-- an exception or an undefined access stopped the run -/
  | raised (f : Fault)
  /-- the statement `return ret_value` was reached -/
  | returned (ret_value : RHash)
  /-- the receive loop has not left by `break` and calls `select` again -/
  | waiting
  deriving DecidableEq, Repr

/-- Variables of the receive loop, with the list of the timeouts passed to `select`. -/
structure RecvState where
  wait_time : Int
  ret_value : RHash
  waits : List Timeval
  deriving DecidableEq, Repr

/-- The loop `while (1)` of lines 212-272, one `SelectResult` for each iteration; `timeout` is
the value of the `mrb_int` variable after `timeout *= 1000`. The difference
`timeout - wait_time` has the wider of the types `mrb_int` and `int`; each of the two
statements `wait_time += ...` adds in `long` and stores into the `int`. -/
def recv_loop (e : Endian) (m : MrbInt) (sent_at : Timeval) (timeout : Int) :
    List SelectResult → RecvState → RecvState × Outcome
  | [], s => (s, .waiting)
  | o :: os, s =>
    let tv := fill_timeout (toUInt64 (wrap_int (max m.bits int_bits) (timeout - s.wait_time)))
    let s := { s with waits := s.waits ++ [tv] }
    match (if o.ret = 1 then recv_drain e m sent_at s.ret_value o.datagrams o.errno
           else .ok s.ret_value) with
    | .error f => (s, .raised f)
    | .ok ret_value =>
      let wait_time :=
        if o.ret = 0 then
          wrap_int int_bits
            (wrap_int int_bits (s.wait_time + o.tv.tv_sec * 1000000) + o.tv.tv_usec)
        else s.wait_time
      let s := { s with wait_time := wait_time, ret_value := ret_value }
      if wait_time ≥ timeout then (s, .returned ret_value)
      else recv_loop e m sent_at timeout os s

/-! ## The send phase -/

/-- Variables of the send loops, with the list of the `sendto` calls made. -/
structure SendState where
  /-- memory of the local `struct icmp` -/
  icmp : List Byte
  ret_value : RHash
  /-- destination and bytes of every `sendto` call so far -/
  sent : List (Addr × List Byte)
  deriving DecidableEq, Repr

/-- The loop over `j` (lines 182-194) for the target `dst` whose array `arr` is stored in
`ret_value`; `sendto_ok k` tells whether the `k`-th `sendto` call of the run succeeds. -/
def send_echoes (e : Endian) (sendto_ok : Nat → Bool) (dst : Addr) :
    List Nat → RArray → SendState → SendState × Option Fault
  | [], _, s => (s, none)
  | j :: js, arr, s =>
    let arr := mrb_ary_set arr j none
    let ret_value := mrb_hash_set s.ret_value dst arr
    let icmp := icmp_set_seq e s.icmp j
    let s1 : SendState := { icmp := icmp, ret_value := ret_value, sent := s.sent ++ [(dst, icmp)] }
    if sendto_ok s.sent.length then send_echoes e sendto_ok dst js arr s1
    else (s1, some .sendFailed)

/-- The loop over the targets (lines 164-196). -/
def send_targets (e : Endian) (sendto_ok : Nat → Bool) (count : Int) :
    List Addr → SendState → SendState × Option Fault
  | [], s => (s, none)
  | a :: as, s =>
    let ret_value := mrb_hash_set s.ret_value a []
    let icmp := icmp_set_header e s.icmp
    match send_echoes e sendto_ok a (List.range count.toNat) []
        { s with icmp := icmp, ret_value := ret_value } with
    | (s, some f) => (s, some f)
    | (s, none) => send_targets e sendto_ok count as s

/-! ## `ping_send_pings` -/

/-- Everything `ping_send_pings` takes from outside its arguments and the target list. -/
structure World where
  endian : Endian
  /-- the integer type mruby was built with -/
  mrb_int : MrbInt
  /-- contents of the uninitialised local `struct icmp`, `sizeof_icmp` bytes -/
  icmp : List Byte
  /-- time read by `gettimeofday(&sent_at)` -/
  sent_at : Timeval
  /-- whether the `k`-th `sendto` call succeeds -/
  sendto_ok : Nat → Bool
  /-- what the successive `select` calls deliver -/
  selects : List SelectResult

/-- What a run did and how it ended. -/
structure Run where
  /-- destination and bytes of every `sendto` call -/
  sent : List (Addr × List Byte)
  /-- timeout passed to every `select` call -/
  waits : List Timeval
  /-- final value of `wait_time` -/
  wait_time : Int
  outcome : Outcome
  deriving DecidableEq, Repr

/-- The function `ping_send_pings` with arguments `timeout` (milliseconds) and `count` (`0`
when the optional argument is absent); `addresses` holds the `st->addresses_count` entries of
`st->addresses`. The loop over `j` runs `count` times, that is not at all for a negative
`count`. The statement `timeout *= 1000` stores the product into the `mrb_int`. -/
def ping_send_pings (w : World) (addresses : List Addr) (timeout count : Int) : Run :=
  let count := if count = 0 then 1 else count
  if timeout ≤ 0 then { sent := [], waits := [], wait_time := 0, outcome := .raised .typeError }
  else
    match send_targets w.endian w.sendto_ok count addresses
        { icmp := w.icmp, ret_value := [], sent := [] } with
    | (s, some f) => { sent := s.sent, waits := [], wait_time := 0, outcome := .raised f }
    | (s, none) =>
      let timeout := wrap_int w.mrb_int.bits (timeout * 1000)
      match recv_loop w.endian w.mrb_int w.sent_at timeout w.selects
          { wait_time := 0, ret_value := s.ret_value, waits := [] } with
      | (r, out) => { sent := s.sent, waits := r.waits, wait_time := r.wait_time, outcome := out }

/-! ## Sample inputs -/

/-- The address `127.0.0.1`, as a little-endian host holds it in an `in_addr_t`. -/
def sample_target : Addr := 0x0100007F

/-- The address `10.0.0.9`, which is not among the targets of the sample runs. -/
def sample_stranger : Addr := 0x0900000A

/-- A 20-byte IPv4 header for an ICMP datagram of 48 bytes; `ip_hl` is the low nibble of the
first byte. -/
def sample_iphdr (ip_hl : Nat) : List Byte :=
  [Fin.ofNat (0x40 + ip_hl % 16), 0, 0, 48, 0, 0, 0, 0, 64, 1, 0, 0, 127, 0, 0, 1, 127, 0, 0, 1]

/-- The 48 bytes of an echo reply to the echo request of sequence index `j`: the request with
its type changed to `ICMP_ECHOREPLY`, after an IP header without options. -/
def sample_reply (e : Endian) (j : Nat) : List Byte :=
  sample_iphdr 5 ++ writeU8 (echo_request e (List.replicate 28 0) j) 0 ICMP_ECHOREPLY

/-- The 48 bytes of somebody else's echo request, which the receive loop ignores. -/
def sample_noise (e : Endian) : List Byte :=
  sample_iphdr 5 ++ echo_request e (List.replicate 28 0) 7

/-- A datagram from `src` handled when `gettimeofday(&received_at)` reads 100 s and `usec`
microseconds. -/
def sample_datagram (src : Addr) (data : List Byte) (usec : Int) : Datagram :=
  { src := src, data := data, received_at := { tv_sec := 100, tv_usec := usec } }

/-- An echo reply whose IP header carries 40 bytes of options (`ip_hl = 15`), 88 bytes on the
wire. -/
def sample_reply_with_options (e : Endian) : List Byte :=
  sample_iphdr 15 ++ List.replicate 40 0 ++
    writeU8 (echo_request e (List.replicate 28 0) 0) 0 ICMP_ECHOREPLY

/-- A `select` that returns `0` and leaves the remaining time, zero, in `tv`. -/
def sample_timed_out_zeroed : SelectResult :=
  { ret := 0, tv := { tv_sec := 0, tv_usec := 0 }, datagrams := [], errno := .eagain }

/-- A `select` that returns `0` and leaves `tv` at `tv_usec` microseconds. -/
def sample_timed_out_leaving (tv_usec : Int) : SelectResult :=
  { ret := 0, tv := { tv_sec := 0, tv_usec := tv_usec }, datagrams := [], errno := .eagain }

/-- A little-endian host with a 32-bit `mrb_int` on which every `sendto` succeeds and
`gettimeofday(&sent_at)` reads 100 s. -/
def sample_world (selects : List SelectResult) : World :=
  { endian := .little
    mrb_int := .int32
    icmp := List.replicate 28 0xAA
    sent_at := { tv_sec := 100, tv_usec := 0 }
    sendto_ok := fun _ => true
    selects := selects }

/-- A `select` that reports the socket readable, followed by reads of `datagrams` and then
`EAGAIN`. -/
def sample_readable (datagrams : List Datagram) : SelectResult :=
  { ret := 1, tv := { tv_sec := 0, tv_usec := 0 }, datagrams := datagrams, errno := .eagain }

/-- A `select` that returns `0` and leaves `tv` as it was passed (1 ms). -/
def sample_timed_out : SelectResult :=
  { ret := 0, tv := { tv_sec := 0, tv_usec := 1000 }, datagrams := [], errno := .eagain }

/-! ## Checksum arithmetic -/

theorem in_cksum_loop_add (e : Endian) :
    ∀ (w : List Byte) (s k : Nat),
      in_cksum_loop e w (s + k) = ((in_cksum_loop e w s).1 + k, (in_cksum_loop e w s).2)
  | [], s, k => by simp [in_cksum_loop]
  | [_], s, k => by simp [in_cksum_loop]
  | b0 :: b1 :: rest, s, k => by
    simp only [in_cksum_loop]
    rw [show s + k + load16 e b0 b1 = s + load16 e b0 b1 + k by omega]
    exact in_cksum_loop_add e rest _ k

theorem in_cksum_sum_nil (e : Endian) : in_cksum_sum e [] = 0 := by
  simp [in_cksum_sum, in_cksum_loop]

theorem in_cksum_sum_single (e : Endian) (b : Byte) : in_cksum_sum e [b] = load16 e b 0 := by
  simp [in_cksum_sum, in_cksum_loop]

theorem in_cksum_sum_cons_cons (e : Endian) (b0 b1 : Byte) (rest : List Byte) :
    in_cksum_sum e (b0 :: b1 :: rest) = load16 e b0 b1 + in_cksum_sum e rest := by
  have h := in_cksum_loop_add e rest 0 (load16 e b0 b1)
  simp only [Nat.zero_add] at h
  simp only [in_cksum_sum, in_cksum_loop, Nat.zero_add, h]
  generalize in_cksum_loop e rest 0 = p
  obtain ⟨s, w⟩ := p
  rcases w with _ | ⟨b, _ | ⟨c, t⟩⟩ <;> simp <;> omega

/-- On a big-endian host the loop adds exactly the words of RFC 1071. -/
theorem in_cksum_sum_big : ∀ b : List Byte, in_cksum_sum .big b = (rfc1071_words b).sum
  | [] => by simp [in_cksum_sum_nil, rfc1071_words]
  | [b] => by simp [in_cksum_sum_single, rfc1071_words, load16]
  | b0 :: b1 :: rest => by
    simp [in_cksum_sum_cons_cons, rfc1071_words, load16, in_cksum_sum_big rest]

/-- On a little-endian host the loop adds the byte-swapped words: the sum times `2^8` is the
RFC 1071 sum up to a multiple of `2^16 - 1`. -/
theorem in_cksum_sum_little :
    ∀ b : List Byte, ∃ k, 256 * in_cksum_sum .little b = (rfc1071_words b).sum + 65535 * k
  | [] => ⟨0, by simp [in_cksum_sum_nil, rfc1071_words]⟩
  | [b] => ⟨0, by simp [in_cksum_sum_single, rfc1071_words, load16]⟩
  | b0 :: b1 :: rest => by
    obtain ⟨k, hk⟩ := in_cksum_sum_little rest
    refine ⟨k + b1.val, ?_⟩
    simp only [in_cksum_sum_cons_cons, rfc1071_words, load16, List.sum_cons]
    omega

/-- The host sum and the RFC 1071 sum vanish together. -/
theorem in_cksum_sum_little_pos :
    ∀ b : List Byte, in_cksum_sum .little b ≤ 256 * (rfc1071_words b).sum ∧
      (rfc1071_words b).sum ≤ 256 * in_cksum_sum .little b
  | [] => by simp [in_cksum_sum_nil, rfc1071_words]
  | [b] => by simp [in_cksum_sum_single, rfc1071_words, load16]; omega
  | b0 :: b1 :: rest => by
    have h := in_cksum_sum_little_pos rest
    simp only [in_cksum_sum_cons_cons, rfc1071_words, load16, List.sum_cons]
    omega

/-- Every word is at most `0xFFFF`, so the sum is bounded by the number of words. -/
theorem in_cksum_sum_le (e : Endian) :
    ∀ b : List Byte, in_cksum_sum e b ≤ 65535 * ((b.length + 1) / 2)
  | [] => by simp [in_cksum_sum_nil]
  | [b] => by
    have := b.isLt
    cases e <;> simp [in_cksum_sum_single, load16] <;> omega
  | b0 :: b1 :: rest => by
    have h := in_cksum_sum_le e rest
    have h0 := b0.isLt
    have h1 := b1.isLt
    have hl : load16 e b0 b1 ≤ 65535 := by cases e <;> simp [load16] <;> omega
    simp only [in_cksum_sum_cons_cons, List.length_cons]
    omega

/-- The accumulator `sum` of type `int` does not overflow on a buffer shorter than `2^16`. -/
theorem in_cksum_sum_le_INT_MAX (e : Endian) (b : List Byte) (h : b.length < 65536) :
    in_cksum_sum e b ≤ INT_MAX := by
  have := in_cksum_sum_le e b
  simp only [INT_MAX]
  omega

/-- Folding until no carry remains gives `0` for `0` and otherwise the representative of the
sum modulo `2^16 - 1` in `1 .. 0xFFFF`. -/
theorem rfc1071_fold_eq (s : Nat) :
    rfc1071_fold s = if s = 0 then 0 else (s - 1) % 65535 + 1 := by
  induction s using Nat.strong_induction_on with
  | _ s ih =>
    rw [rfc1071_fold]
    by_cases h : s < 65536
    · simp only [h, dite_true]
      split_ifs <;> omega
    · simp only [h, dite_false]
      rw [ih _ (by omega)]
      split_ifs <;> omega

/-- The two fold steps of `in_cksum`, truncated to 16 bits, also give that representative. -/
theorem in_cksum_fold_eq (s : Nat) (h : s ≤ INT_MAX) :
    in_cksum_fold s % 65536 = if s = 0 then 0 else (s - 1) % 65535 + 1 := by
  simp only [INT_MAX] at h
  have hand : s &&& 0xFFFF = s % 65536 := Nat.and_pow_two_sub_one_eq_mod s 16
  have hshr : ∀ x : Nat, x >>> 16 = x / 65536 := fun x => Nat.shiftRight_eq_div_pow x 16
  simp only [in_cksum_fold, hshr, hand]
  generalize hq : s / 65536 = q
  generalize hr : s % 65536 = r
  have hs : s = 65536 * q + r := by omega
  by_cases h1 : q + r < 65536
  · have hd : (q + r) / 65536 = 0 := by omega
    rw [hd]
    split_ifs with h0
    · omega
    · have hm : (s - 1) % 65535 = q + r - 1 := by
        rw [show s - 1 = (q + r - 1) + 65535 * q by omega, Nat.add_mul_mod_self_left]
        exact Nat.mod_eq_of_lt (by omega)
      omega
  · have hd : (q + r) / 65536 = 1 := by omega
    rw [hd]
    obtain ⟨d, hqr⟩ : ∃ d, q + r = 65536 + d := Nat.exists_eq_add_of_le (by omega)
    have hm : (s - 1) % 65535 = d := by
      rw [show s - 1 = d + 65535 * (q + 1) by omega, Nat.add_mul_mod_self_left]
      exact Nat.mod_eq_of_lt (by omega)
    split_ifs with h0 <;> omega

/-- Multiplying by `2^8` modulo `2^16 - 1` exchanges the two bytes of the representative. -/
theorem fold_byte_swap (S T k : Nat) (h : 256 * S = T + 65535 * k) (hS : 0 < S) (hT : 0 < T) :
    (T - 1) % 65535 + 1 =
      256 * (((S - 1) % 65535 + 1) % 256) + ((S - 1) % 65535 + 1) / 256 := by
  generalize hx : (S - 1) % 65535 + 1 = x
  generalize hm : (S - 1) / 65535 = m
  have hSx : S = x + 65535 * m := by omega
  have hx1 : 1 ≤ x ∧ x ≤ 65535 := by omega
  generalize ha : x / 256 = a
  generalize hc : x % 256 = c
  have hxa : x = 256 * a + c := by omega
  have hk : k ≤ a + 256 * m := by omega
  have hT' : T - 1 = (256 * c + a - 1) + 65535 * (a + 256 * m - k) := by omega
  rw [hT', Nat.add_mul_mod_self_left, Nat.mod_eq_of_lt (by omega)]
  omega

/-- The value `in_cksum` returns, in terms of the sum of the host-order words. -/
theorem in_cksum_eq (e : Endian) (b : List Byte) (h : b.length < 65536) :
    in_cksum e b =
      65535 - (if in_cksum_sum e b = 0 then 0 else (in_cksum_sum e b - 1) % 65535 + 1) := by
  simp only [in_cksum, not16]
  rw [in_cksum_fold_eq _ (in_cksum_sum_le_INT_MAX e b h)]

/-- Storing a 16-bit value in little-endian order gives the bytes of the swapped value in
big-endian order. -/
theorem store16_little_eq_big (v : Nat) (hv : v ≤ 65535) :
    store16 .little v = store16 .big (256 * (v % 256) + v / 256) := by
  generalize ha : v / 256 = a
  generalize hc : v % 256 = c
  have ha' : a < 256 := by omega
  have hc' : c < 256 := by omega
  have h1 : (256 * c + a) / 256 = c := by omega
  have h2 : (256 * c + a) % 256 = a := by omega
  simp only [store16, h1, h2, ha, hc, Nat.mod_eq_of_lt ha', Nat.mod_eq_of_lt hc']

/-- Complementing commutes with exchanging the two bytes. -/
theorem not_byte_swap (x : Nat) (h1 : 1 ≤ x) (h2 : x ≤ 65535) :
    65535 - (256 * (x % 256) + x / 256) =
      256 * ((65535 - x) % 256) + (65535 - x) / 256 := by
  generalize ha : x / 256 = a
  generalize hc : x % 256 = c
  have hx : x = 256 * a + c := by omega
  have ha' : a < 256 := by omega
  have h3 : (65535 - x) / 256 = 255 - a := by omega
  have h4 : (65535 - x) % 256 = 255 - c := by omega
  omega

/-- Claim C1: for every byte buffer shorter than `2^16` and either byte order of the host, the
value `in_cksum` returns, stored in host byte order, gives the two bytes of the RFC 1071
checksum of the buffer written big-endian; the two fold steps of `in_cksum` agree with
folding until no carry remains, and the `int` accumulator stays within range. -/
theorem in_cksum_matches_rfc1071 (e : Endian) (b : List Byte) (h : b.length < 65536) :
    store16 e (in_cksum e b) = store16 .big (rfc1071 b) ∧
      in_cksum_fold (in_cksum_sum e b) % 65536 = rfc1071_fold (in_cksum_sum e b) ∧
      in_cksum_sum e b ≤ INT_MAX := by
  refine ⟨?_, ?_, in_cksum_sum_le_INT_MAX e b h⟩
  · rw [in_cksum_eq e b h]
    simp only [rfc1071, rfc1071_fold_eq]
    cases e with
    | big => rw [in_cksum_sum_big]
    | little =>
      obtain ⟨k, hk⟩ := in_cksum_sum_little b
      obtain ⟨h1, h2⟩ := in_cksum_sum_little_pos b
      generalize in_cksum_sum .little b = S at *
      generalize (rfc1071_words b).sum = T at *
      by_cases hS : S = 0
      · have hT : T = 0 := by omega
        subst hS hT
        rfl
      · have hT : ¬ T = 0 := by omega
        have hsw := fold_byte_swap S T k hk (by omega) (by omega)
        simp only [hS, hT, if_false]
        rw [hsw, not_byte_swap _ (by omega) (by omega)]
        exact store16_little_eq_big _ (by omega)
  · rw [in_cksum_fold_eq _ (in_cksum_sum_le_INT_MAX e b h), rfc1071_fold_eq]

/-- Instance of C1: an odd-length buffer on a little-endian host. -/
theorem in_cksum_matches_rfc1071_witness :
    store16 .little (in_cksum .little [0x45, 0x00, 0x1c]) =
        store16 .big (rfc1071 [0x45, 0x00, 0x1c]) ∧
      in_cksum .little [0x45, 0x00, 0x1c] = 0xff9e :=
  ⟨(in_cksum_matches_rfc1071 .little [0x45, 0x00, 0x1c] (by decide)).1, by decide⟩

/-! ## Patching the checksum field -/

theorem length_writeU8 (m : List Byte) (off v : Nat) : (writeU8 m off v).length = m.length := by
  simp [writeU8]

theorem length_writeU16 (e : Endian) (m : List Byte) (off v : Nat) :
    (writeU16 e m off v).length = m.length := by
  cases e <;> simp [writeU16, store16]

/-- A 16-bit load reads back what a 16-bit store wrote. -/
theorem readU16_writeU16 (e : Endian) (m : List Byte) (off v : Nat) (h : off + 1 < m.length) :
    readU16 e (writeU16 e m off v) off = .ok (v % 65536) := by
  have h0 : off < m.length := by omega
  cases e <;>
    simp [readU16, writeU16, store16, load16, List.getElem?_set, h, h0, Fin.ofNat] <;> omega

/-- A 16-bit store at an even offset replaces one word of the sum. -/
theorem in_cksum_sum_writeU16 (e : Endian) (v : Nat) :
    ∀ (k : Nat) (m : List Byte) (old : Nat), readU16 e m (2 * k) = .ok old →
      in_cksum_sum e (writeU16 e m (2 * k) v) + old = in_cksum_sum e m + v % 65536 := by
  intro k
  induction k with
  | zero =>
    intro m old h
    rcases m with _ | ⟨b0, _ | ⟨b1, rest⟩⟩
    · simp [readU16] at h
    · simp [readU16] at h
    · simp only [readU16, Nat.mul_zero, List.getElem?_cons_zero, Nat.zero_add,
        List.getElem?_cons_succ, Except.ok.injEq] at h
      cases e <;>
        simp [writeU16, store16, in_cksum_sum_cons_cons, load16, Fin.ofNat] at h ⊢ <;> omega
  | succ k ih =>
    intro m old h
    rcases m with _ | ⟨b0, _ | ⟨b1, rest⟩⟩
    · simp [readU16] at h
    · simp [readU16] at h
    · have h' : readU16 e rest (2 * k) = .ok old := by
        simpa [readU16, Nat.mul_succ] using h
      have hw : writeU16 e (b0 :: b1 :: rest) (2 * (k + 1)) v =
          b0 :: b1 :: writeU16 e rest (2 * k) v := by
        cases e <;> simp [writeU16, store16, Nat.mul_succ]
      rw [hw, in_cksum_sum_cons_cons, in_cksum_sum_cons_cons]
      have := ih rest old h'
      omega

/-- Adding the complement of its representative to a sum gives a sum whose representative is
`0xFFFF`. -/
theorem fold_add_complement (S : Nat) :
    let c := 65535 - (if S = 0 then 0 else (S - 1) % 65535 + 1)
    (if S + c = 0 then 0 else (S + c - 1) % 65535 + 1) = 65535 := by
  intro c
  by_cases hS : S = 0
  · subst hS
    simp [c]
  · have hc : c = 65534 - (S - 1) % 65535 := by simp only [c, hS, if_false]; omega
    have hpos : ¬ S + c = 0 := by omega
    have hm : (S + c - 1) % 65535 = 65534 := by
      rw [show S + c - 1 = 65534 + 65535 * ((S - 1) / 65535) by omega,
        Nat.add_mul_mod_self_left]
    simp only [hpos, if_false, hm]

/-- Writing `in_cksum` of a buffer into a zeroed, 16-bit aligned field of the buffer makes the
checksum of the whole buffer zero. -/
theorem in_cksum_writeU16_in_cksum (e : Endian) (p : List Byte) (k : Nat)
    (hlen : p.length < 65536) (hfield : readU16 e p (2 * k) = .ok 0) :
    in_cksum e (writeU16 e p (2 * k) (in_cksum e p)) = 0 := by
  have hsum := in_cksum_sum_writeU16 e (in_cksum e p) k p 0 hfield
  have hc := in_cksum_eq e p hlen
  have hle : in_cksum e p ≤ 65535 := by rw [hc]; omega
  rw [Nat.add_zero, Nat.mod_eq_of_lt (by omega)] at hsum
  rw [in_cksum_eq e _ (by rw [length_writeU16]; exact hlen), hsum, hc]
  have := fold_add_complement (in_cksum_sum e p)
  simp only at this
  rw [this]

/-- The checksum written by one iteration of the loop over `j` makes `in_cksum` over the
whole `struct icmp` zero. -/
theorem in_cksum_icmp_set_seq (e : Endian) (m : List Byte) (j : Nat)
    (hm : m.length = sizeof_icmp) :
    in_cksum e (icmp_set_seq e m j) = 0 := by
  simp only [icmp_set_seq]
  generalize hm6 : writeU16 e m 6 (htons e j) = m6
  have hl : m6.length = 28 := by rw [← hm6, length_writeU16]; exact hm
  have hz := readU16_writeU16 e m6 2 0 (by omega)
  exact in_cksum_writeU16_in_cksum e (writeU16 e m6 2 0) 1
    (by rw [length_writeU16]; omega) hz

theorem length_icmp_set_header (e : Endian) (icmp : List Byte) :
    (icmp_set_header e icmp).length = icmp.length := by
  simp only [icmp_set_header, length_writeU16, length_writeU8]

theorem length_icmp_set_seq (e : Endian) (icmp : List Byte) (j : Nat) :
    (icmp_set_seq e icmp j).length = icmp.length := by
  simp only [icmp_set_seq, length_writeU16]

/-- Claim C2: writing `in_cksum` of a packet shorter than `2^16` into its zeroed checksum field
(a `uint16_t` at an even offset) and recomputing `in_cksum` over the patched packet gives `0`;
so does `in_cksum` over the echo request `ping_send_pings` builds for any sequence index,
whatever the `struct icmp` contained before. -/
theorem in_cksum_of_patched_packet (e : Endian) (p : List Byte) (off : Nat)
    (hlen : p.length < 65536) (heven : p.length % 2 = 0) (hoff : off % 2 = 0)
    (hfield : readU16 e p off = .ok 0)
    (icmp : List Byte) (j : Nat) (hicmp : icmp.length = sizeof_icmp) :
    in_cksum e (writeU16 e p off (in_cksum e p)) = 0 ∧
      in_cksum e (echo_request e icmp j) = 0 := by
  have _ := heven
  constructor
  · obtain ⟨k, rfl⟩ : ∃ k, off = 2 * k := ⟨off / 2, by omega⟩
    exact in_cksum_writeU16_in_cksum e p k hlen hfield
  · exact in_cksum_icmp_set_seq e _ j (by rw [length_icmp_set_header]; exact hicmp)

/-- Instance of C2: the echo request for sequence index `1` on a little-endian host, built in
a `struct icmp` that held the bytes `0xAA`. -/
theorem in_cksum_of_patched_packet_witness :
    in_cksum .little (echo_request .little (List.replicate 28 0xAA) 1) = 0 :=
  (in_cksum_of_patched_packet .little
    (writeU16 .little (List.replicate 28 0xAA) 2 0) 2
    (by decide) (by decide) (by decide) (by decide)
    (List.replicate 28 0xAA) 1 (by decide)).2

/-! ## Argument check and loop exit -/

/-- Claim C7: with a timeout of zero or less `ping_send_pings` raises the type error of its
argument check: no `sendto` call is made and no `select` call either, for every count and
every target list. -/
theorem ping_send_pings_timeout_nonpos (w : World) (addresses : List Addr)
    (timeout count : Int) (h : timeout ≤ 0) :
    ping_send_pings w addresses timeout count =
      { sent := [], waits := [], wait_time := 0, outcome := .raised .typeError } := by
  simp [ping_send_pings, h]

/-- Instance of C7: timeout `-5`, two echoes for one target. -/
theorem ping_send_pings_timeout_nonpos_witness :
    (ping_send_pings (sample_world [sample_timed_out]) [sample_target] (-5) 2).sent = [] ∧
      (ping_send_pings (sample_world [sample_timed_out]) [sample_target] (-5) 2).outcome =
        .raised .typeError := by
  rw [ping_send_pings_timeout_nonpos (sample_world [sample_timed_out]) [sample_target] (-5) 2
    (by decide)]
  exact ⟨rfl, rfl⟩

/-- The receive loop leaves by `break` only with `wait_time ≥ timeout`. -/
theorem recv_loop_returned (e : Endian) (m : MrbInt) (sent_at : Timeval) (timeout : Int) :
    ∀ (os : List SelectResult) (s r : RecvState) (h : RHash),
      recv_loop e m sent_at timeout os s = (r, .returned h) →
        timeout ≤ r.wait_time ∧ h = r.ret_value := by
  intro os
  induction os with
  | nil => intro s r h hr; simp [recv_loop] at hr
  | cons o os ih =>
    intro s r h hr
    simp only [recv_loop] at hr
    generalize (if o.ret = 1 then recv_drain e m sent_at s.ret_value o.datagrams o.errno
      else .ok s.ret_value) = dr at hr
    cases dr with
    | error f => simp at hr
    | ok rv =>
      simp only at hr
      generalize (if o.ret = 0 then
          wrap_int int_bits
            (wrap_int int_bits (s.wait_time + o.tv.tv_sec * 1000000) + o.tv.tv_usec)
        else s.wait_time) = wt at hr
      by_cases hge : wt ≥ timeout
      · rw [if_pos hge] at hr
        simp only [Prod.mk.injEq, Outcome.returned.injEq] at hr
        obtain ⟨hr1, hr2⟩ := hr
        subst hr1
        exact ⟨hge, hr2.symm⟩
      · rw [if_neg hge] at hr
        exact ih _ _ _ hr

/-- A value inside the range of `mrb_int` is stored unchanged. -/
theorem wrap_int_of_le_MRB_INT_MAX (m : MrbInt) (x : Int) (h0 : 0 ≤ x) (h1 : x ≤ MRB_INT_MAX m) :
    wrap_int m.bits x = x := by
  cases m
  · have hp : ((2 ^ (32 - 1) : Nat) : Int) = 2147483648 := by norm_num
    have hq : ((2 ^ 32 : Nat) : Int) = 4294967296 := by norm_num
    simp only [MRB_INT_MAX, MrbInt.bits, hp] at h1
    simp only [wrap_int, MrbInt.bits, hp, hq]
    rw [Int.emod_eq_of_lt (by omega) (by omega)]
    omega
  · have hp : ((2 ^ (64 - 1) : Nat) : Int) = 9223372036854775808 := by norm_num
    have hq : ((2 ^ 64 : Nat) : Int) = 18446744073709551616 := by norm_num
    simp only [MRB_INT_MAX, MrbInt.bits, hp] at h1
    simp only [wrap_int, MrbInt.bits, hp, hq]
    rw [Int.emod_eq_of_lt (by omega) (by omega)]
    omega

/-- Claim C9, as the code has it: in every run of `ping_send_pings` that returns a result, the
receive loop was left with `wait_time` at or above the value the variable `timeout` holds after
`timeout *= 1000`, whatever replies have been stored: the only exit of the loop is that test.
Whenever the product fits `mrb_int`, this is `wait_time ≥ timeout * 1000` microseconds. -/
theorem ping_send_pings_returns_after_timeout (w : World) (addresses : List Addr)
    (timeout count : Int) (ret_value : RHash)
    (h : (ping_send_pings w addresses timeout count).outcome = .returned ret_value) :
    wrap_int w.mrb_int.bits (timeout * 1000) ≤
        (ping_send_pings w addresses timeout count).wait_time ∧
      (timeout * 1000 ≤ MRB_INT_MAX w.mrb_int →
        timeout * 1000 ≤ (ping_send_pings w addresses timeout count).wait_time) := by
  have hpos : ¬ timeout ≤ 0 := by
    intro hle
    simp [ping_send_pings, hle] at h
  have hmain : wrap_int w.mrb_int.bits (timeout * 1000) ≤
      (ping_send_pings w addresses timeout count).wait_time := by
    unfold ping_send_pings at h ⊢
    simp only [hpos, if_false] at h ⊢
    split at h
    · simp at h
    · rename_i s hs
      simp only [hs]
      generalize hr : recv_loop w.endian w.mrb_int w.sent_at
        (wrap_int w.mrb_int.bits (timeout * 1000)) w.selects
        { wait_time := 0, ret_value := s.ret_value, waits := [] } = res at h
      obtain ⟨r, out⟩ := res
      simp only at h ⊢
      subst h
      exact (recv_loop_returned _ _ _ _ _ _ _ _ hr).1
  refine ⟨hmain, fun hfit => ?_⟩
  rw [wrap_int_of_le_MRB_INT_MAX w.mrb_int (timeout * 1000) (by omega) hfit] at hmain
  exact hmain

/-- Instance of the corrected C9: one target answers after 5 ms, then `select` times out after
the full millisecond it was given. -/
theorem ping_send_pings_returns_after_timeout_witness :
    (1 : Int) * 1000 ≤
      (ping_send_pings
        (sample_world
          [sample_readable [sample_datagram sample_target (sample_reply .little 0) 5000],
            sample_timed_out])
        [sample_target] 1 1).wait_time :=
  (ping_send_pings_returns_after_timeout _ [sample_target] 1 1 [(sample_target, [some 5000])]
    (by decide)).2 (by decide)

/-- Claim C9 fails as stated for a timeout whose microsecond value does not fit `mrb_int`:
with a 32-bit `mrb_int` and a timeout of 4294968 ms, `timeout *= 1000` leaves 704; `select`
is given 704 microseconds, times out, and the run returns with `wait_time = 704`, below the
4294968000 microseconds of the timeout. -/
theorem timeout_overflow_returns_early :
    ping_send_pings (sample_world [sample_timed_out_leaving 704]) [sample_target] 4294968 1 =
      { sent := [(sample_target, echo_request .little (List.replicate 28 0xAA) 0)]
        waits := [⟨0, 704⟩]
        wait_time := 704
        outcome := .returned [(sample_target, [none])] } ∧
    ¬ ((4294968 : Int) * 1000 ≤
      (ping_send_pings (sample_world [sample_timed_out_leaving 704]) [sample_target]
        4294968 1).wait_time) := by
  decide

/-- A run whose only slot is filled after its first wait has not left the loop: `wait_time`
is still `0`. -/
theorem filled_slots_do_not_end_loop :
    ping_send_pings
      (sample_world
        [sample_readable [sample_datagram sample_target (sample_reply .little 0) 5000]])
      [sample_target] 1 1 =
    { sent := [(sample_target, echo_request .little (List.replicate 28 0xAA) 0)]
      waits := [⟨0, 1000⟩]
      wait_time := 0
      outcome := .waiting } := by
  decide

/-! ## The result hash -/

theorem mrb_hash_get_set (h : RHash) (k k2 : Addr) (v : RArray) :
    mrb_hash_get (mrb_hash_set h k v) k2 = if k = k2 then some v else mrb_hash_get h k2 := by
  induction h with
  | nil => simp [mrb_hash_set, mrb_hash_get]
  | cons p h ih =>
    obtain ⟨k1, v1⟩ := p
    simp only [mrb_hash_set]
    by_cases h1 : k1 = k
    · subst h1
      simp only [if_true, mrb_hash_get]
      split_ifs <;> rfl
    · simp only [h1, if_false, mrb_hash_get, ih]
      by_cases h2 : k1 = k2
      · have h3 : ¬ k = k2 := fun hk => h1 (hk ▸ h2)
        simp [h2, h3]
      · simp [h2]

theorem mrb_ary_set_get (ary : RArray) (n : Nat) (val : Option Int) :
    (mrb_ary_set ary n val)[n]? = some val := by
  unfold mrb_ary_set
  split
  · rename_i hle
    rw [List.getElem?_append_right (by simp; omega)]
    have hlen : n - (ary ++ List.replicate (n - ary.length) none).length = 0 := by
      simp; omega
    rw [hlen]
    rfl
  · rename_i hgt
    simp [List.getElem?_set]
    omega

theorem length_mrb_ary_set (ary : RArray) (n : Nat) (val : Option Int) :
    (mrb_ary_set ary n val).length = max ary.length (n + 1) := by
  unfold mrb_ary_set
  split
  · simp; omega
  · simp; omega

/-! ## Replies -/

/-- A valid reply from a registered target is stored at its sequence number, whatever the slot
held before. -/
theorem handle_datagram_stores (e : Endian) (m : MrbInt) (sent_at : Timeval) (ret_value : RHash)
    (d : Datagram) (r : Reply) (arr : RArray)
    (hp : parse_reply e (d.data.take packet_size) = .ok (some r))
    (hg : mrb_hash_get ret_value d.src = some arr) :
    ∃ h1, handle_datagram e m sent_at ret_value d = .ok h1 ∧
      (∃ arr1, mrb_hash_get h1 d.src = some arr1 ∧
        arr1[r.seq]? = some (some (mrb_fixnum_value m (latency sent_at d.received_at)))) := by
  refine ⟨mrb_hash_set ret_value d.src
    (mrb_ary_set arr r.seq (some (mrb_fixnum_value m (latency sent_at d.received_at)))), ?_,
    mrb_ary_set arr r.seq (some (mrb_fixnum_value m (latency sent_at d.received_at))), ?_, ?_⟩
  · simp only [handle_datagram, hp, hg]
  · rw [mrb_hash_get_set, if_pos rfl]
  · exact mrb_ary_set_get _ _ _

/-- Claim C3, as the code has it: of two valid echo replies for the same target and sequence
number that are handled one after the other, both are stored, and the slot ends with the
latency of the second reply (as `mrb_fixnum_value` converts it to `mrb_int`). -/
theorem second_reply_overwrites_slot (e : Endian) (m : MrbInt) (sent_at : Timeval) (ret_value : RHash)
    (d1 d2 : Datagram) (r1 r2 : Reply) (arr : RArray)
    (hp1 : parse_reply e (d1.data.take packet_size) = .ok (some r1))
    (hp2 : parse_reply e (d2.data.take packet_size) = .ok (some r2))
    (hsrc : d2.src = d1.src) (hseq : r2.seq = r1.seq)
    (hg : mrb_hash_get ret_value d1.src = some arr) :
    ∃ h1 h2 arr2, handle_datagram e m sent_at ret_value d1 = .ok h1 ∧
      handle_datagram e m sent_at h1 d2 = .ok h2 ∧
      mrb_hash_get h2 d1.src = some arr2 ∧
      arr2[r1.seq]? = some (some (mrb_fixnum_value m (latency sent_at d2.received_at))) := by
  obtain ⟨h1, hh1, arr1, hg1, _⟩ := handle_datagram_stores e m sent_at ret_value d1 r1 arr hp1 hg
  obtain ⟨h2, hh2, arr2, hg2, hs2⟩ :=
    handle_datagram_stores e m sent_at h1 d2 r2 arr1 hp2 (hsrc ▸ hg1)
  exact ⟨h1, h2, arr2, hh1, hh2, hsrc ▸ hg2, hseq ▸ hs2⟩

/-- Instance of the corrected C3: replies to sequence `0` handled 5 ms and 9 ms after the
requests were sent; the slot ends with 9000. -/
theorem second_reply_overwrites_slot_witness :
    ∃ h1 h2 arr2,
      handle_datagram .little .int32 ⟨100, 0⟩ [(sample_target, [none])]
        (sample_datagram sample_target (sample_reply .little 0) 5000) = .ok h1 ∧
      handle_datagram .little .int32 ⟨100, 0⟩ h1
        (sample_datagram sample_target (sample_reply .little 0) 9000) = .ok h2 ∧
      mrb_hash_get h2 sample_target = some arr2 ∧
      arr2[0]? = some (some 9000) :=
  second_reply_overwrites_slot .little .int32 ⟨100, 0⟩ [(sample_target, [none])]
    (sample_datagram sample_target (sample_reply .little 0) 5000)
    (sample_datagram sample_target (sample_reply .little 0) 9000)
    ⟨0, 0xFFFF⟩ ⟨0, 0xFFFF⟩ [none] (by decide) (by decide) rfl rfl (by decide)

/-- Claim C3 fails as stated: in the run below the target answers sequence `0` twice, after
5 ms and after 9 ms; the first reply alone would leave 5000 in the slot, and the run returns
9000 there. -/
theorem first_reply_is_overwritten :
    handle_datagram .little .int32 ⟨100, 0⟩ [(sample_target, [none])]
        (sample_datagram sample_target (sample_reply .little 0) 5000) =
      .ok [(sample_target, [some 5000])] ∧
    (ping_send_pings
      (sample_world
        [sample_readable
          [sample_datagram sample_target (sample_reply .little 0) 5000,
            sample_datagram sample_target (sample_reply .little 0) 9000],
          sample_timed_out])
      [sample_target] 1 1).outcome = .returned [(sample_target, [some 9000])] ∧
    (ping_send_pings
      (sample_world
        [sample_readable
          [sample_datagram sample_target (sample_reply .little 0) 5000,
            sample_datagram sample_target (sample_reply .little 0) 9000],
          sample_timed_out])
      [sample_target] 1 1).outcome ≠ .returned [(sample_target, [some 5000])] := by
  decide

/-- Claim C4, failing input: one target, `count = 1`, and an echo reply from the target with
sequence number `3`. The send phase leaves one slot; the returned array has four. -/
theorem reply_past_count_grows_array :
    (send_targets .little (fun _ => true) 1 [sample_target]
      { icmp := List.replicate 28 0xAA, ret_value := [], sent := [] }).1.ret_value =
        [(sample_target, [none])] ∧
    (ping_send_pings
      (sample_world
        [sample_readable [sample_datagram sample_target (sample_reply .little 3) 5000],
          sample_timed_out])
      [sample_target] 1 1).outcome =
        .returned [(sample_target, [none, none, none, some 5000])] := by
  decide

/-- Claim C6, failing input: an echo reply with identifier `0xFFFF` from an address that is
not a target. `mrb_hash_get` returns `nil` and `mrb_ary_set` is applied to it; no result is
returned. -/
theorem reply_from_stranger_faults :
    (ping_send_pings
      (sample_world
        [sample_readable [sample_datagram sample_stranger (sample_reply .little 0) 5000],
          sample_timed_out])
      [sample_target] 1 1).outcome = .raised .notAnArray := by
  decide

/-- Claim C10, failing input: a datagram whose IP header has `ip_hl = 15`. `recvfrom` writes
its first 48 bytes, the length check passes, and `pkt->icmp_type` is read at offset 60 of
the 48-byte array. -/
theorem ip_options_read_past_packet :
    ((sample_reply_with_options .little).take packet_size).length = sizeof_ip + sizeof_icmp ∧
    parse_reply .little ((sample_reply_with_options .little).take packet_size) =
      .error .outOfBounds ∧
    (ping_send_pings
      (sample_world
        [sample_readable
          [sample_datagram sample_target (sample_reply_with_options .little) 5000],
          sample_timed_out])
      [sample_target] 1 1).outcome = .raised .outOfBounds := by
  decide

/-! ## The budget of the receive loop -/

theorem fill_timeout_loop_eq :
    ∀ (fuel duration : Nat) (tv_sec : Int), duration ≤ fuel →
      fill_timeout_loop fuel duration tv_sec =
        (tv_sec + ((duration / 1000000 : Nat) : Int), duration % 1000000) := by
  intro fuel
  induction fuel with
  | zero =>
    intro duration tv_sec h
    have h0 : duration = 0 := by omega
    subst h0
    simp [fill_timeout_loop]
  | succ fuel ih =>
    intro duration tv_sec h
    simp only [fill_timeout_loop]
    by_cases hd : duration ≥ 1000000
    · obtain ⟨d, rfl⟩ := Nat.exists_eq_add_of_le hd
      rw [if_pos hd, Nat.add_sub_cancel_left, ih d (tv_sec + 1) (by omega)]
      have h1 : (1000000 + d) / 1000000 = d / 1000000 + 1 := by omega
      have h2 : (1000000 + d) % 1000000 = d % 1000000 := by omega
      rw [h1, h2]
      push_cast
      congr 1
      omega
    · rw [if_neg hd]
      have h1 : duration / 1000000 = 0 := by omega
      have h2 : duration % 1000000 = duration := by omega
      rw [h1, h2]
      simp

/-- The function `fill_timeout` splits the duration into whole seconds and the microseconds
left; its loop ends within the iterations the definition allows. -/
theorem fill_timeout_eq (duration : Nat) :
    fill_timeout duration =
      { tv_sec := ((duration / 1000000 : Nat) : Int),
        tv_usec := ((duration % 1000000 : Nat) : Int) } := by
  simp only [fill_timeout, fill_timeout_loop_eq duration duration 0 (Nat.le_refl _)]
  simp

/-- The datagram of somebody else's echo request is ignored. -/
theorem handle_datagram_noise (m : MrbInt) (sent_at : Timeval) (ret_value : RHash)
    (src : Addr) (usec : Int) :
    handle_datagram .little m sent_at ret_value
      (sample_datagram src (sample_noise .little) usec) = .ok ret_value := by
  have hp : parse_reply .little ((sample_noise .little).take packet_size) = .ok none := by
    decide
  simp only [handle_datagram, sample_datagram, hp]

/-- While `select` reports the socket readable, `wait_time` stays `0` and the loop asks for
the whole timeout again. -/
theorem recv_loop_readable (sent_at : Timeval) (src : Addr) (usec : Int) :
    ∀ (n : Nat) (s : RecvState), s.wait_time = 0 →
      recv_loop .little .int32 sent_at 1000
        (List.replicate n (sample_readable [sample_datagram src (sample_noise .little) usec])) s =
      ({ s with waits := s.waits ++ List.replicate n ⟨0, 1000⟩ }, .waiting) := by
  intro n
  induction n with
  | zero => intro s _; simp [recv_loop]
  | succ n ih =>
    intro s hs
    have htv : fill_timeout (toUInt64 (wrap_int (max MrbInt.int32.bits int_bits) (1000 - 0))) =
        ⟨0, 1000⟩ := by decide
    simp only [List.replicate_succ, recv_loop, sample_readable, if_true, recv_drain,
      handle_datagram_noise, hs, htv]
    rw [if_neg (by decide), if_neg (by decide)]
    have := ih { wait_time := 0, ret_value := s.ret_value, waits := s.waits ++ [⟨0, 1000⟩] } rfl
    simp only [sample_readable] at this
    rw [this]
    simp [List.append_assoc]

/-- Claim C5, failing input: timeout 1 ms, and a socket that is readable at each of `n` calls
of `select` (an unrelated datagram each time). The run is still in the loop after `n` waits,
`wait_time` is `0`, and each of the `n` waits asked for was the full millisecond. -/
theorem readable_socket_keeps_loop_waiting (n : Nat) :
    ping_send_pings
      (sample_world (List.replicate n
        (sample_readable [sample_datagram sample_stranger (sample_noise .little) 300])))
      [sample_target] 1 1 =
    { sent := [(sample_target, echo_request .little (List.replicate 28 0xAA) 0)]
      waits := List.replicate n ⟨0, 1000⟩
      wait_time := 0
      outcome := .waiting } := by
  have hsend : send_targets .little (fun _ => true) 1 [sample_target]
      { icmp := List.replicate 28 0xAA, ret_value := [], sent := [] } =
      ({ icmp := echo_request .little (List.replicate 28 0xAA) 0
         ret_value := [(sample_target, [none])]
         sent := [(sample_target, echo_request .little (List.replicate 28 0xAA) 0)] }, none) := by
    decide
  have hloop := recv_loop_readable ⟨100, 0⟩ sample_stranger 300 n
    { wait_time := 0, ret_value := [(sample_target, [none])], waits := [] } rfl
  simp only [ping_send_pings, sample_world]
  rw [if_neg (by decide : ¬ ((1 : Int) ≤ 0)), if_neg (by decide : ¬ ((1 : Int) = 0)), hsend]
  simp only [show wrap_int MrbInt.int32.bits ((1 : Int) * 1000) = 1000 by decide, hloop]
  simp

/-- When `select` returns `0` and leaves the remaining time, zero, in `tv`, `wait_time` does
not advance either. -/
theorem zeroed_timeval_keeps_loop_waiting (e : Endian) (sent_at : Timeval) :
    ∀ (n : Nat) (s : RecvState), s.wait_time = 0 →
      recv_loop e .int32 sent_at 1000 (List.replicate n sample_timed_out_zeroed) s =
      ({ s with waits := s.waits ++ List.replicate n ⟨0, 1000⟩ }, .waiting) := by
  intro n
  induction n with
  | zero => intro s _; simp [recv_loop]
  | succ n ih =>
    intro s hs
    have htv : fill_timeout (toUInt64 (wrap_int (max MrbInt.int32.bits int_bits) (1000 - 0))) =
        ⟨0, 1000⟩ := by decide
    have := ih { wait_time := 0, ret_value := s.ret_value, waits := s.waits ++ [⟨0, 1000⟩] } rfl
    simp only [sample_timed_out_zeroed] at this
    simp only [List.replicate_succ, recv_loop, sample_timed_out_zeroed, hs, htv, if_true,
      show wrap_int int_bits (wrap_int int_bits ((0 : Int) + 0 * 1000000) + 0) = 0 by decide,
      show ¬ ((0 : Int) = 1) by decide,
      show ¬ ((0 : Int) ≥ 1000) by decide, if_false, this]
    simp [List.append_assoc]

/-! ## Reading back what the send loop wrote -/

theorem readU8_writeU8 (m : List Byte) (i v : Nat) (h : i < m.length) :
    readU8 (writeU8 m i v) i = .ok (v % 256) := by
  have hv : v % 256 % 256 = v % 256 := Nat.mod_mod _ _
  simp [readU8, writeU8, List.getElem?_set, h, Fin.ofNat, hv]

theorem readU16_writeU8_ne (e : Endian) (m : List Byte) (i v off : Nat)
    (h1 : i ≠ off) (h2 : i ≠ off + 1) :
    readU16 e (writeU8 m i v) off = readU16 e m off := by
  simp only [readU16, writeU8, List.getElem?_set_ne h1, List.getElem?_set_ne h2]

theorem readU16_writeU16_ne (e : Endian) (m : List Byte) (i v off : Nat)
    (h : i + 1 < off ∨ off + 1 < i) :
    readU16 e (writeU16 e m i v) off = readU16 e m off := by
  have h1 : i ≠ off := by omega
  have h2 : i ≠ off + 1 := by omega
  have h3 : i + 1 ≠ off := by omega
  have h4 : i + 1 ≠ off + 1 := by omega
  cases e <;>
    simp only [readU16, writeU16, store16, List.getElem?_set_ne h1, List.getElem?_set_ne h2,
      List.getElem?_set_ne h3, List.getElem?_set_ne h4]

theorem readU8_append_left (p q : List Byte) (i : Nat) (h : i < p.length) :
    readU8 (p ++ q) i = readU8 p i := by
  simp only [readU8, List.getElem?_append_left h]

theorem readU8_append_right (p q : List Byte) (k : Nat) :
    readU8 (p ++ q) (p.length + k) = readU8 q k := by
  simp [readU8, List.getElem?_append_right]

theorem readU16_append_right (e : Endian) (p q : List Byte) (k : Nat) :
    readU16 e (p ++ q) (p.length + k) = readU16 e q k := by
  simp [readU16, List.getElem?_append_right, Nat.add_assoc]

/-- The conversions `htons` and `ntohs` undo each other on 16 bits. -/
theorem ntohs_htons (e : Endian) (S : Nat) : ntohs e (htons e S % 65536) = S % 65536 := by
  generalize hv : S % 65536 = v
  have hlt : v < 65536 := by omega
  cases e with
  | big => simp only [ntohs, htons, hv]; omega
  | little =>
    simp only [ntohs, htons, hv, bswap16]
    generalize ha : v / 256 = a
    generalize hc : v % 256 = c
    have ha1 : a < 256 := by omega
    have hc1 : c < 256 := by omega
    rw [Nat.mod_eq_of_lt ha1]
    have h1 : (c * 256 + a) % 65536 = c * 256 + a := Nat.mod_eq_of_lt (by omega)
    rw [h1, Nat.mod_eq_of_lt (by omega : c * 256 + a < 65536)]
    have h2 : (c * 256 + a) % 256 = a := by omega
    have h3 : (c * 256 + a) / 256 = c := by omega
    rw [h2, h3, Nat.mod_eq_of_lt hc1]
    omega

/-- The fields of the echo request the send loop builds, read back through `uint16_t`
loads. -/
theorem echo_request_fields (e : Endian) (icmp : List Byte) (j : Nat)
    (h : icmp.length = sizeof_icmp) :
    (echo_request e icmp j).length = sizeof_icmp ∧
      readU16 e (echo_request e icmp j) 4 = .ok 0xFFFF ∧
      readU16 e (echo_request e icmp j) 6 = .ok (htons e j % 65536) := by
  simp only [sizeof_icmp] at h
  simp only [echo_request, icmp_set_seq, icmp_set_header, sizeof_icmp]
  refine ⟨by simp only [length_writeU16, length_writeU8, h], ?_, ?_⟩
  · rw [readU16_writeU16_ne _ _ _ _ _ (by omega), readU16_writeU16_ne _ _ _ _ _ (by omega),
      readU16_writeU16_ne _ _ _ _ _ (by omega),
      readU16_writeU16 _ _ _ _ (by simp only [length_writeU8, h]; omega)]
  · rw [readU16_writeU16_ne _ _ _ _ _ (by omega), readU16_writeU16_ne _ _ _ _ _ (by omega),
      readU16_writeU16 _ _ _ _ (by simp only [length_writeU16, length_writeU8, h]; omega)]

/-- Claim C8, as the code has it: the echo request built for sequence index `S`, with its type
changed to echo reply and placed after a 20-byte IP header (`ip_hl = 5`), is accepted by the
parse step, which decodes identifier `0xFFFF` and sequence `S mod 2^16`; that is `S` for
every `S < 65536`. -/
theorem parse_reply_of_echo_request (e : Endian) (icmp iphdr : List Byte) (S b0 : Nat)
    (hicmp : icmp.length = sizeof_icmp) (hip : iphdr.length = sizeof_ip)
    (hb0 : readU8 iphdr 0 = .ok b0) (hhl : b0 % 16 = 5) :
    parse_reply e (iphdr ++ writeU8 (echo_request e icmp S) 0 ICMP_ECHOREPLY) =
        .ok (some { seq := S % 65536, id := 0xFFFF }) ∧
      (S < 65536 → parse_reply e (iphdr ++ writeU8 (echo_request e icmp S) 0 ICMP_ECHOREPLY) =
        .ok (some { seq := S, id := 0xFFFF })) := by
  obtain ⟨hlen, hid, hseq⟩ := echo_request_fields e icmp S hicmp
  have hmain : parse_reply e (iphdr ++ writeU8 (echo_request e icmp S) 0 ICMP_ECHOREPLY) =
      .ok (some { seq := S % 65536, id := 0xFFFF }) := by
    simp only [sizeof_icmp, sizeof_ip] at hlen hip
    have h0 : readU8 (iphdr ++ writeU8 (echo_request e icmp S) 0 ICMP_ECHOREPLY) 0 = .ok b0 := by
      rw [readU8_append_left _ _ _ (by omega), hb0]
    have hpkt : (b0 % 16) <<< 2 = iphdr.length + 0 := by rw [hhl, hip]; rfl
    have hty : readU8 (iphdr ++ writeU8 (echo_request e icmp S) 0 ICMP_ECHOREPLY)
        (iphdr.length + 0) = .ok 0 := by
      rw [readU8_append_right, readU8_writeU8 _ _ _ (by omega)]
      rfl
    have hid2 : readU16 e (iphdr ++ writeU8 (echo_request e icmp S) 0 ICMP_ECHOREPLY)
        (iphdr.length + 0 + 4) = .ok 0xFFFF := by
      rw [Nat.add_zero, readU16_append_right,
        readU16_writeU8_ne _ _ _ _ _ (by omega) (by omega), hid]
    have hseq2 : readU16 e (iphdr ++ writeU8 (echo_request e icmp S) 0 ICMP_ECHOREPLY)
        (iphdr.length + 0 + 6) = .ok (htons e S % 65536) := by
      rw [Nat.add_zero, readU16_append_right,
        readU16_writeU8_ne _ _ _ _ _ (by omega) (by omega), hseq]
    have hl : (iphdr ++ writeU8 (echo_request e icmp S) 0 ICMP_ECHOREPLY).length ≥
        sizeof_ip + sizeof_icmp := by
      simp only [List.length_append, length_writeU8, hlen, hip, sizeof_ip, sizeof_icmp]
      omega
    simp only [ICMP_ECHOREPLY] at h0 hty hid2 hseq2 hl
    simp only [parse_reply, if_pos hl, h0, hpkt, hty, hid2, hseq2, bind, Except.bind,
      ICMP_ECHOREPLY, if_true, pure, Except.pure, ntohs_htons]
  refine ⟨hmain, fun hS => ?_⟩
  rw [hmain, Nat.mod_eq_of_lt hS]

/-- Instance of the corrected C8: sequence index `258` on a big-endian host. -/
theorem parse_reply_of_echo_request_witness :
    parse_reply .big (sample_iphdr 5 ++
        writeU8 (echo_request .big (List.replicate 28 0) 258) 0 ICMP_ECHOREPLY) =
      .ok (some { seq := 258, id := 0xFFFF }) :=
  (parse_reply_of_echo_request .big (List.replicate 28 0) (sample_iphdr 5) 258 0x45
    (by decide) (by decide) (by decide) (by decide)).2 (by decide)

/-- Claim C8 fails as stated for a count above `2^16`: the send loop emits sequence index
`65536`, whose request carries `htons(65536) = 0`, and the parse step decodes sequence `0`. -/
theorem sequence_65536_decodes_as_0 :
    parse_reply .little (sample_reply .little 65536) = .ok (some { seq := 0, id := 0xFFFF }) ∧
      parse_reply .little (sample_reply .little 65536) ≠
        .ok (some { seq := 65536, id := 0xFFFF }) := by
  decide

/-! ## Datagrams the receive loop ignores -/

/-- A datagram shorter than the two headers is ignored. -/
theorem handle_datagram_short (e : Endian) (m : MrbInt) (sent_at : Timeval) (ret_value : RHash)
    (d : Datagram) (h : d.data.length < sizeof_ip + sizeof_icmp) :
    handle_datagram e m sent_at ret_value d = .ok ret_value := by
  have hl : ¬ (d.data.take packet_size).length ≥ sizeof_ip + sizeof_icmp := by
    simp only [List.length_take, packet_size, sizeof_ip, sizeof_icmp] at h ⊢
    omega
  simp only [handle_datagram, parse_reply, if_neg hl, pure, Except.pure]

/-- A datagram whose ICMP type, read inside the packet, is not echo reply is ignored. -/
theorem handle_datagram_other_type (e : Endian) (m : MrbInt) (sent_at : Timeval) (ret_value : RHash)
    (d : Datagram) (b0 ty : Nat)
    (hb0 : readU8 (d.data.take packet_size) 0 = .ok b0)
    (hty : readU8 (d.data.take packet_size) ((b0 % 16) <<< 2) = .ok ty)
    (h : ty ≠ ICMP_ECHOREPLY) :
    handle_datagram e m sent_at ret_value d = .ok ret_value := by
  have hp : parse_reply e (d.data.take packet_size) = .ok none := by
    simp only [parse_reply, hb0, hty, bind, Except.bind, if_neg h, pure, Except.pure]
    split <;> rfl
  simp only [handle_datagram, hp]

/-- An echo reply whose identifier, read inside the packet, is not `0xFFFF` is ignored. -/
theorem handle_datagram_other_id (e : Endian) (m : MrbInt) (sent_at : Timeval) (ret_value : RHash)
    (d : Datagram) (b0 id : Nat)
    (hb0 : readU8 (d.data.take packet_size) 0 = .ok b0)
    (hty : readU8 (d.data.take packet_size) ((b0 % 16) <<< 2) = .ok ICMP_ECHOREPLY)
    (hid : readU16 e (d.data.take packet_size) ((b0 % 16) <<< 2 + 4) = .ok id)
    (h : id ≠ 0xFFFF) :
    handle_datagram e m sent_at ret_value d = .ok ret_value := by
  have hp : parse_reply e (d.data.take packet_size) = .ok none := by
    simp only [parse_reply, hb0, hty, hid, bind, Except.bind, if_true, if_neg h, pure,
      Except.pure]
    split <;> rfl
  simp only [handle_datagram, hp]

/-- A valid echo reply from an address that has no array in the result hash stops the run. -/
theorem handle_datagram_unregistered (e : Endian) (m : MrbInt) (sent_at : Timeval) (ret_value : RHash)
    (d : Datagram) (r : Reply)
    (hp : parse_reply e (d.data.take packet_size) = .ok (some r))
    (hg : mrb_hash_get ret_value d.src = none) :
    handle_datagram e m sent_at ret_value d = .error .notAnArray := by
  simp only [handle_datagram, hp, hg]

/-- With `ip_hl ≥ 12` the type field lies past the 48 bytes of `packet`. -/
theorem parse_reply_out_of_bounds (e : Endian) (packet : List Byte) (b0 : Nat)
    (hlen : packet.length = packet_size) (hb0 : readU8 packet 0 = .ok b0)
    (h : 12 ≤ b0 % 16) :
    parse_reply e packet = .error .outOfBounds := by
  have hl : packet.length ≥ sizeof_ip + sizeof_icmp := by rw [hlen]; exact Nat.le_refl _
  have hoff : packet.length ≤ (b0 % 16) <<< 2 := by
    rw [hlen, Nat.shiftLeft_eq]
    simp only [packet_size, sizeof_ip, sizeof_icmp]
    omega
  have hty : readU8 packet ((b0 % 16) <<< 2) = .error .outOfBounds := by
    simp only [readU8, List.getElem?_eq_none hoff]
  simp only [parse_reply, if_pos hl, hb0, hty, bind, Except.bind]

/-- With `ip_hl ≤ 10` every field the parse step reads lies inside the 48 bytes. -/
theorem parse_reply_in_bounds (e : Endian) (packet : List Byte) (b0 : Nat)
    (hlen : packet.length = packet_size) (hb0 : readU8 packet 0 = .ok b0)
    (h : b0 % 16 ≤ 10) :
    parse_reply e packet ≠ .error .outOfBounds := by
  have hl : packet.length ≥ sizeof_ip + sizeof_icmp := by rw [hlen]; exact Nat.le_refl _
  simp only [packet_size, sizeof_ip, sizeof_icmp] at hlen
  have hsh : (b0 % 16) <<< 2 = (b0 % 16) * 4 := by rw [Nat.shiftLeft_eq]
  have hget : ∀ k, k < 8 → ∃ b : Byte, packet[(b0 % 16) <<< 2 + k]? = some b := by
    intro k hk
    have hlt : (b0 % 16) <<< 2 + k < packet.length := by rw [hsh, hlen]; omega
    exact ⟨packet[(b0 % 16) <<< 2 + k], List.getElem?_eq_getElem hlt⟩
  obtain ⟨t0, ht0⟩ := hget 0 (by omega)
  obtain ⟨t4, ht4⟩ := hget 4 (by omega)
  obtain ⟨t5, ht5⟩ := hget 5 (by omega)
  obtain ⟨t6, ht6⟩ := hget 6 (by omega)
  obtain ⟨t7, ht7⟩ := hget 7 (by omega)
  rw [Nat.add_zero] at ht0
  have hty : readU8 packet ((b0 % 16) <<< 2) = .ok t0.val := by simp only [readU8, ht0]
  have hid : readU16 e packet ((b0 % 16) <<< 2 + 4) = .ok (load16 e t4 t5) := by
    simp only [readU16, ht4, ht5, Nat.add_assoc]
  have hseq : readU16 e packet ((b0 % 16) <<< 2 + 6) = .ok (load16 e t6 t7) := by
    simp only [readU16, ht6, ht7, Nat.add_assoc]
  simp only [parse_reply, if_pos hl, hb0, hty, hid, hseq, bind, Except.bind, pure, Except.pure]
  split_ifs <;> simp

/-! ## Slots after the send phase -/

theorem foldl_mrb_ary_set_range (n : Nat) :
    (List.range n).foldl (fun a j => mrb_ary_set a j none) [] = List.replicate n none := by
  induction n with
  | zero => rfl
  | succ n ih =>
    rw [List.range_succ, List.foldl_append, ih]
    simp [mrb_ary_set, List.replicate_succ']

/-- The loop over `j`, when every `sendto` succeeds: the array of the target receives a `nil`
at every index of the loop, and no other key of the hash changes. -/
theorem send_echoes_slots (e : Endian) (sendto_ok : Nat → Bool) (dst : Addr)
    (hok : ∀ k, sendto_ok k = true) :
    ∀ (js : List Nat) (arr : RArray) (s : SendState),
      mrb_hash_get s.ret_value dst = some arr →
      (send_echoes e sendto_ok dst js arr s).2 = none ∧
      mrb_hash_get (send_echoes e sendto_ok dst js arr s).1.ret_value dst =
        some (js.foldl (fun a j => mrb_ary_set a j none) arr) ∧
      ∀ k, k ≠ dst → mrb_hash_get (send_echoes e sendto_ok dst js arr s).1.ret_value k =
        mrb_hash_get s.ret_value k := by
  intro js
  induction js with
  | nil => intro arr s hg; exact ⟨rfl, hg, fun _ _ => rfl⟩
  | cons j js ih =>
    intro arr s hg
    simp only [send_echoes, hok, if_true, List.foldl_cons]
    obtain ⟨h1, h2, h3⟩ := ih (mrb_ary_set arr j none)
      { icmp := icmp_set_seq e s.icmp j
        ret_value := mrb_hash_set s.ret_value dst (mrb_ary_set arr j none)
        sent := s.sent ++ [(dst, icmp_set_seq e s.icmp j)] }
      (by rw [mrb_hash_get_set, if_pos rfl])
    refine ⟨h1, h2, fun k hk => ?_⟩
    rw [h3 k hk, mrb_hash_get_set, if_neg (fun h => hk h.symm)]

/-- Right after the send phase, when every `sendto` succeeded, every target of the list has
`count` slots, all `nil`. -/
theorem send_targets_slots (e : Endian) (sendto_ok : Nat → Bool) (count : Int)
    (hok : ∀ k, sendto_ok k = true) :
    ∀ (addresses : List Addr) (s : SendState),
      (send_targets e sendto_ok count addresses s).2 = none ∧
      (∀ a ∈ addresses, mrb_hash_get (send_targets e sendto_ok count addresses s).1.ret_value a =
        some (List.replicate count.toNat none)) ∧
      ∀ k, k ∉ addresses → mrb_hash_get (send_targets e sendto_ok count addresses s).1.ret_value k =
        mrb_hash_get s.ret_value k := by
  intro addresses
  induction addresses with
  | nil => intro s; exact ⟨rfl, fun _ h => by simp at h, fun _ _ => rfl⟩
  | cons a as ih =>
    intro s
    obtain ⟨h1, h2, h3⟩ := send_echoes_slots e sendto_ok a hok (List.range count.toNat) []
      { s with icmp := icmp_set_header e s.icmp, ret_value := mrb_hash_set s.ret_value a [] }
      (by rw [mrb_hash_get_set, if_pos rfl])
    rw [foldl_mrb_ary_set_range] at h2
    simp only [send_targets]
    generalize send_echoes e sendto_ok a (List.range count.toNat) []
      { s with icmp := icmp_set_header e s.icmp, ret_value := mrb_hash_set s.ret_value a [] } = r
      at h1 h2 h3
    obtain ⟨s1, f⟩ := r
    simp only at h1 h2 h3
    subst h1
    simp only
    obtain ⟨g1, g2, g3⟩ := ih s1
    refine ⟨g1, fun b hb => ?_, fun k hk => ?_⟩
    · by_cases hmem : b ∈ as
      · exact g2 b hmem
      · have hba : b = a := by
          rcases List.mem_cons.mp hb with h | h
          · exact h
          · exact absurd h hmem
        rw [g3 b hmem, hba, h2]
    · have hka : k ≠ a := fun h => hk (h ▸ List.mem_cons_self _ _)
      have hkas : k ∉ as := fun h => hk (List.mem_cons_of_mem _ h)
      rw [g3 k hkas, h3 k hka, mrb_hash_get_set, if_neg (fun h => hka h.symm)]

/-! ## The packets of the send loop -/

theorem writeU16_writeU16_same (e : Endian) (m : List Byte) (i v w : Nat) :
    writeU16 e (writeU16 e m i v) i w = writeU16 e m i w := by
  cases e <;>
  · simp only [writeU16, store16]
    apply List.ext_getElem?
    intro n
    simp only [List.getElem?_set, List.length_set]
    split_ifs <;> rfl

theorem writeU16_comm (e : Endian) (m : List Byte) (i k v w : Nat)
    (h : i + 1 < k ∨ k + 1 < i) :
    writeU16 e (writeU16 e m i v) k w = writeU16 e (writeU16 e m k w) i v := by
  cases e <;>
  · simp only [writeU16, store16]
    apply List.ext_getElem?
    intro n
    simp only [List.getElem?_set, List.length_set]
    split_ifs <;> first | rfl | omega

/-- The writes of one iteration of the loop over `j` replace those of the iteration before. -/
theorem icmp_set_seq_icmp_set_seq (e : Endian) (m : List Byte) (j1 j : Nat) :
    icmp_set_seq e (icmp_set_seq e m j1) j = icmp_set_seq e m j := by
  have h : writeU16 e (writeU16 e (icmp_set_seq e m j1) 6 (htons e j)) 2 0 =
      writeU16 e (writeU16 e m 6 (htons e j)) 2 0 := by
    simp only [icmp_set_seq]
    rw [writeU16_comm e _ 2 6 _ _ (Or.inl (by omega)), writeU16_writeU16_same,
      writeU16_comm e _ 2 6 _ _ (Or.inl (by omega)), writeU16_writeU16_same,
      writeU16_writeU16_same]
  simp only [icmp_set_seq] at h ⊢
  rw [h]

/-- Every `sendto` call of the loop over `j` sends the `struct icmp` of the start of the loop
with the writes of that `j`. -/
theorem send_echoes_sent (e : Endian) (sendto_ok : Nat → Bool) (dst : Addr) :
    ∀ (js : List Nat) (arr : RArray) (s : SendState),
      (send_echoes e sendto_ok dst js arr s).1.icmp.length = s.icmp.length ∧
      ∀ p ∈ (send_echoes e sendto_ok dst js arr s).1.sent,
        p ∈ s.sent ∨ ∃ j ∈ js, p = (dst, icmp_set_seq e s.icmp j) := by
  intro js
  induction js with
  | nil => intro arr s; exact ⟨rfl, fun p hp => Or.inl hp⟩
  | cons j js ih =>
    intro arr s
    simp only [send_echoes]
    by_cases hok : sendto_ok s.sent.length = true
    · rw [if_pos hok]
      obtain ⟨h1, h2⟩ := ih (mrb_ary_set arr j none)
        { icmp := icmp_set_seq e s.icmp j
          ret_value := mrb_hash_set s.ret_value dst (mrb_ary_set arr j none)
          sent := s.sent ++ [(dst, icmp_set_seq e s.icmp j)] }
      refine ⟨by rw [h1, length_icmp_set_seq], fun p hp => ?_⟩
      rcases h2 p hp with h | ⟨j2, hj2, hpj⟩
      · rcases List.mem_append.mp h with h | h
        · exact Or.inl h
        · exact Or.inr ⟨j, List.mem_cons_self _ _, List.mem_singleton.mp h⟩
      · refine Or.inr ⟨j2, List.mem_cons_of_mem _ hj2, ?_⟩
        rw [hpj, icmp_set_seq_icmp_set_seq]
    · rw [if_neg hok]
      refine ⟨length_icmp_set_seq e _ _, fun p hp => ?_⟩
      rcases List.mem_append.mp hp with h | h
      · exact Or.inl h
      · exact Or.inr ⟨j, List.mem_cons_self _ _, List.mem_singleton.mp h⟩

/-- Every `sendto` call of the send phase sends, to a target of the list, the echo request of
a sequence index below `count`, built in a `struct icmp` of the same size. -/
theorem send_targets_sent (e : Endian) (sendto_ok : Nat → Bool) (count : Int) :
    ∀ (addresses : List Addr) (s : SendState),
      ∀ p ∈ (send_targets e sendto_ok count addresses s).1.sent,
        p ∈ s.sent ∨ ∃ m j, m.length = s.icmp.length ∧ j < count.toNat ∧
          p.1 ∈ addresses ∧ p.2 = echo_request e m j := by
  intro addresses
  induction addresses with
  | nil => intro s p hp; exact Or.inl hp
  | cons a as ih =>
    intro s p hp
    obtain ⟨h1, h2⟩ := send_echoes_sent e sendto_ok a (List.range count.toNat) []
      { s with icmp := icmp_set_header e s.icmp, ret_value := mrb_hash_set s.ret_value a [] }
    have hfirst : ∀ q ∈ (send_echoes e sendto_ok a (List.range count.toNat) []
        { s with icmp := icmp_set_header e s.icmp,
                 ret_value := mrb_hash_set s.ret_value a [] }).1.sent,
        q ∈ s.sent ∨ ∃ m j, m.length = s.icmp.length ∧ j < count.toNat ∧
          q.1 ∈ a :: as ∧ q.2 = echo_request e m j := by
      intro q hq
      rcases h2 q hq with h | ⟨j, hj, hqj⟩
      · exact Or.inl h
      · exact Or.inr ⟨s.icmp, j, rfl, List.mem_range.mp hj,
          by rw [hqj]; exact List.mem_cons_self _ _, by rw [hqj]; rfl⟩
    simp only [send_targets] at hp
    generalize send_echoes e sendto_ok a (List.range count.toNat) []
      { s with icmp := icmp_set_header e s.icmp, ret_value := mrb_hash_set s.ret_value a [] } = r
      at h1 hfirst hp
    obtain ⟨s1, f⟩ := r
    cases f with
    | some f => exact hfirst p hp
    | none =>
      simp only at hp h1 hfirst
      rcases ih s1 p hp with h | ⟨m, j, hm, hj, hmem, hpm⟩
      · exact hfirst p h
      · refine Or.inr ⟨m, j, ?_, hj, List.mem_cons_of_mem _ hmem, hpm⟩
        rw [hm, h1, length_icmp_set_header]

/-- Every packet a run of `ping_send_pings` hands to `sendto` has checksum zero when
`in_cksum` is computed over it again. -/
theorem ping_send_pings_sent_in_cksum (w : World) (addresses : List Addr) (timeout count : Int)
    (hicmp : w.icmp.length = sizeof_icmp) :
    ∀ p ∈ (ping_send_pings w addresses timeout count).sent, in_cksum w.endian p.2 = 0 := by
  intro p hp
  have hsent : p ∈ (send_targets w.endian w.sendto_ok (if count = 0 then 1 else count) addresses
      { icmp := w.icmp, ret_value := [], sent := [] }).1.sent := by
    unfold ping_send_pings at hp
    simp only at hp
    split at hp
    · simp at hp
    · split at hp
      · rename_i s f hs
        rw [hs]
        exact hp
      · rename_i s hs
        rw [hs]
        exact hp
  rcases send_targets_sent _ _ _ _ _ p hsent with h | ⟨m, j, hm, _, _, hpm⟩
  · simp at h
  · rw [hpm]
    exact in_cksum_icmp_set_seq _ _ j (by rw [length_icmp_set_header, hm]; exact hicmp)

end MrubyPing
